import Mathlib

/-!
Verification of the lib_cmd command-interpreter library.

The definitions below are a shallow embedding of the C++ sources
(lib_cmd/cmd.h and lib_cmd/cmd.cpp).  C strings are modelled as Lean
strings / lists of characters, machine integers as Nat or Int with
explicit reduction modulo two to the sixty-fourth power where overflow
matters, and fallible or possibly non-terminating loops return Option
(none meaning the loop has not finished within the given fuel).
-/

namespace Cmd

/-! ## cmd_util_t::str_match (cmd.cpp lines 61 to 84)

The C function walks both strings with an index i.  When the source
string ends it returns INT_MAX on a simultaneous end of sub, otherwise
a negative sentinel; when only sub ends it returns i (the matched
length); a differing character yields the negative sentinel. -/

def INT_MAX : Int := 2147483647

def strMatchAux : List Char → List Char → Nat → Int
  | [], [], _ => INT_MAX
  | [], _ :: _, _ => -1
  | _ :: _, [], i => (i : Int)
  | c :: str, d :: sub, i => if c = d then strMatchAux str sub (i + 1) else -1

def str_match (str sub : String) : Int :=
  strMatchAux str.data sub.data 0

/-! ## cmd_util_t::strtoll (cmd.cpp lines 86 to 115) and
cmd_token_t::get (cmd.h lines 197 to 207)

The C scanning loop multiplies the uint64 accumulator by the base
before examining each character.  On a decimal non-digit it returns at
once: true if the character is a space (leaving the out parameter at
the value the caller initialised it to), false otherwise.  In base 16
a character that is not a hex digit simply falls through the if chain
and the loop continues, so hex parsing never fails.  The out parameter
is assigned only on the normal exit of the loop. -/

def U64MOD : Nat := 18446744073709551616

def strtollLoop (base : Nat) (out0 : Nat) : List Char → Nat → Option Nat
  | [], accum => some accum
  | c :: rest, accum =>
      let a := accum * base % U64MOD
      if '0' ≤ c ∧ c ≤ '9' then
        strtollLoop base out0 rest ((a + (c.toNat - '0'.toNat)) % U64MOD)
      else if base = 16 then
        if 'a' ≤ c ∧ c ≤ 'f' then
          strtollLoop base out0 rest ((a + (c.toNat - 'a'.toNat + 10)) % U64MOD)
        else if 'A' ≤ c ∧ c ≤ 'F' then
          strtollLoop base out0 rest ((a + (c.toNat - 'A'.toNat + 10)) % U64MOD)
        else
          strtollLoop base out0 rest a
      else if c = ' ' then some out0
      else none

def strtoll (inp : String) (out0 : Nat) : Option (Nat × Bool) :=
  let p : Bool × List Char :=
    match inp.data with
    | '-' :: rest => (true, rest)
    | cs => (false, cs)
  let q : Nat × List Char :=
    if p.2.take 2 = ['0', 'x'] then (16, p.2.drop 2) else (10, p.2)
  match strtollLoop q.1 out0 q.2 0 with
  | some v => some (v, p.1)
  | none => none

/-- cmd_token_t::get instantiated at int64_t: the caller initialises the
out parameter to 0, then reinterprets (neg ? 0 - value : value) as a
signed two's-complement 64-bit integer. -/
def tokenGet (s : String) : Option Int :=
  match strtoll s 0 with
  | none => none
  | some (v, neg) =>
      let u := if neg then (U64MOD - v) % U64MOD else v
      some (if u < 9223372036854775808 then (u : Int) else (u : Int) - (U64MOD : Int))

/-! ## cmd_tokens_t (cmd.h lines 234 to 401)

The token stream holds the raw word deque, the staged flag name
(stage_pair_.first), the positional token deque, the pair map and the
flag set.  std::map and std::set are modelled as lists with
insert-or-update and insert-if-absent operations; only membership and
counts matter to the claims.  cmd_tokens_t::push is cmd.h lines 295 to
333, token_pop is lines 345 to 358 (its two assertion failures are
modelled as none). -/

structure CmdTokens where
  raw : List String
  stage : String
  tokens : List String
  pairs : List (String × String)
  flags : List String
  deriving DecidableEq

def emptyTokens : CmdTokens := ⟨[], "", [], [], []⟩

def insertFlag (s : List String) (x : String) : List String :=
  if x ∈ s then s else s ++ [x]

def insertPair : List (String × String) → String → String → List (String × String)
  | [], k, v => [(k, v)]
  | (k0, v0) :: rest, k, v =>
      if k0 = k then (k0, v) :: rest else (k0, v0) :: insertPair rest k v

def lookupId : List (String × Nat) → String → Option Nat
  | [], _ => none
  | (k, v) :: rest, s => if k = s then some v else lookupId rest s

/-- Identifier substitution inside push: a word starting with a dollar
sign whose remainder is a registered identifier is replaced by the
decimal string of the stored value. -/
def identSubst (idents : List (String × Nat)) (input : String) : String :=
  match input.data with
  | '$' :: rest =>
      match lookupId idents (String.mk rest) with
      | some v => toString v
      | none => input
  | _ => input

def push (idents : List (String × Nat)) (st : CmdTokens) (input : String) : CmdTokens :=
  if input = "" then
    if st.stage ≠ "" then
      { st with flags := insertFlag st.flags st.stage, stage := "" }
    else st
  else
    if (identSubst idents input).data.head? = some '-' then
      if st.stage ≠ "" then
        { st with raw := st.raw ++ [identSubst idents input],
                  flags := insertFlag st.flags st.stage,
                  stage := identSubst idents input }
      else
        { st with raw := st.raw ++ [identSubst idents input],
                  stage := identSubst idents input }
    else
      if st.stage ≠ "" then
        { st with raw := st.raw ++ [identSubst idents input],
                  pairs := insertPair st.pairs st.stage (identSubst idents input),
                  stage := "" }
      else
        { st with raw := st.raw ++ [identSubst idents input],
                  tokens := st.tokens ++ [identSubst idents input] }

def token_pop (st : CmdTokens) : Option CmdTokens :=
  match st.tokens, st.raw with
  | t :: ts, r :: rs =>
      if r = t then some { st with tokens := ts, raw := rs } else none
  | _, _ => none

/-! ## tokenize (cmd.cpp lines 29 to 57)

The C loop keeps two pointers, start and src; pending holds the
characters between them.  On a space or tab the pending word is pushed
and the loop then skips a run of SPACES ONLY (the skip loop condition
is *src equal to a single space), which is why a tab is re-examined
forever.  Fuel bounds the number of loop iterations; none means the
loop has not terminated within the fuel. -/

def tokLoop (idents : List (String × Nat)) :
    Nat → List Char → List Char → CmdTokens → Option CmdTokens
  | 0, _, _, _ => none
  | fuel + 1, pending, src, st =>
      match src with
      | [] =>
          let st := if pending ≠ [] then push idents st (String.mk pending) else st
          some (push idents st "")
      | c :: rest =>
          if c = ' ' ∨ c = '\t' then
            let st := push idents st (String.mk pending)
            tokLoop idents fuel [] (List.dropWhile (fun ch => ch = ' ') (c :: rest)) st
          else
            tokLoop idents fuel (pending ++ [c]) rest st

def tokenize (idents : List (String × Nat)) (s : String) : Option CmdTokens :=
  tokLoop idents (s.length * 2 + 2) [] s.data emptyTokens

def pushList (idents : List (String × Nat)) (ws : List String) : CmdTokens :=
  ws.foldl (push idents) emptyTokens

/-! ## The command tree, find_matches and the dispatcher
(cmd.cpp lines 7 to 26 and 143 to 229)

A cmd_t carries a name and its owned sub command list; the virtual
on_execute and on_usage handlers are parameters of the embedding (a
Handlers record), since command implementations are external
collaborators.  cmd_output_t text output is modelled as a trace of
structured events.  A result is ok, ub (an unguarded read of an empty
container or a tripped assertion) or outOfFuel (a loop that did not
finish within the given fuel, which only bounds the modelled
recursion). -/

inductive CmdNode where
  | mk (name : String) (sub : List CmdNode)

def CmdNode.name : CmdNode → String
  | .mk n _ => n

def CmdNode.sub : CmdNode → List CmdNode
  | .mk _ s => s

/-- find_matches (cmd.cpp lines 7 to 26): fold over the candidate list
keeping the best str_match score seen so far (initially 0); a strictly
better score resets the vector, an equal score appends. -/
def findMatchesLoop (sub : String) : List CmdNode → Int → List CmdNode → List CmdNode
  | [], _, vec => vec
  | item :: rest, score, vec =>
      if str_match item.name sub > score then findMatchesLoop sub rest (str_match item.name sub) [item]
      else if str_match item.name sub = score then findMatchesLoop sub rest score (vec ++ [item])
      else findMatchesLoop sub rest score vec

def find_matches (list : List CmdNode) (sub : String) : List CmdNode :=
  findMatchesLoop sub list 0 []

inductive Ev where
  | echoPrev (s : String)
  | possibleCompletions (names : List String)
  | invalidCommand
  | commandFailed (s : String)
  | usageCall (name : String)
  | execCall (name : String) (ts : CmdTokens)
  deriving DecidableEq

inductive Res (α : Type) where
  | ok (val : α)
  | ub
  | outOfFuel
  deriving DecidableEq

structure Env where
  root : List CmdNode
  aliases : List (String × CmdNode)
  idents : List (String × Nat)

structure Handlers where
  hexec : CmdNode → CmdTokens → Bool
  husage : CmdNode → Bool

def alias_find : List (String × CmdNode) → String → Option CmdNode
  | [], _ => none
  | (k, c) :: rest, s => if k = s then some c else alias_find rest s

/-- The resolution while loop of execute_imp (cmd.cpp lines 194 to
215): while positional tokens remain, find the best matches of the
front token among the current sibling list; no match breaks the walk,
a unique match descends and pops the token, ties clear the resolved
node, print the completions and break.  Every successful iteration
pops one positional token, so tokens.length + 1 fuel always
suffices. -/
def walkLoop : Nat → List CmdNode → Option CmdNode → CmdTokens →
    Res (Option CmdNode × CmdTokens × List Ev)
  | 0, _, _, _ => .outOfFuel
  | fuel + 1, list, cmd, ts =>
      match ts.tokens with
      | [] => .ok (cmd, ts, [])
      | t :: _ =>
          match find_matches list t with
          | [] => .ok (cmd, ts, [])
          | [c] =>
              match token_pop ts with
              | some ts2 => walkLoop fuel c.sub (some c) ts2
              | none => .ub
          | cs => .ok (none, ts, [.possibleCompletions (cs.map CmdNode.name)])

/-- The post-resolution dispatch (cmd.cpp lines 217 to 224): if the
remaining POSITIONAL token deque is non-empty and its last entry is the
string ?, call on_usage, otherwise call on_execute with the remaining
tokens. -/
def dispatchNode (h : Handlers) (c : CmdNode) (ts : CmdTokens) : Bool × Ev :=
  match ts.tokens.getLast? with
  | some t => if t = "?" then (h.husage c, .usageCall c.name) else (h.hexec c ts, .execCall c.name ts)
  | none => (h.hexec c ts, .execCall c.name ts)

/-- cmd_parser_t::execute_imp (cmd.cpp lines 171 to 229).  The state is
the history list; the returned triple is the bool result, the new
history and the output trace.  last_cmd (cmd.h lines 575 to 578) is
history_.back(), an unguarded read modelled as ub on an empty
history. -/
def execute_imp (h : Handlers) : Nat → Env → String → List String →
    Res (Bool × List String × List Ev)
  | 0, _, _, _ => .outOfFuel
  | fuel + 1, env, expr, hist =>
      match hist.getLast? with
      | none => .ub
      | some prev =>
          match tokenize env.idents expr with
          | none => .outOfFuel
          | some ts =>
              match ts.tokens with
              | [] =>
                  match (hist ++ [expr]).getLast? with
                  | none => .ub
                  | some cur =>
                      if cur = "" then .ok (false, hist ++ [expr], [])
                      else
                        match execute_imp h fuel env prev (hist ++ [expr]) with
                        | .ok (b, h3, evs) => .ok (b, h3, .echoPrev prev :: evs)
                        | r => r
              | t0 :: _ =>
                  match alias_find env.aliases t0 with
                  | some c =>
                      match token_pop ts with
                      | some ts2 =>
                          .ok ((dispatchNode h c ts2).1, hist ++ [expr], [(dispatchNode h c ts2).2])
                      | none => .ub
                  | none =>
                      match walkLoop (ts.tokens.length + 1) env.root none ts with
                      | .ok (some c, ts2, evs) =>
                          .ok ((dispatchNode h c ts2).1, hist ++ [expr],
                            evs ++ [(dispatchNode h c ts2).2])
                      | .ok (none, _, evs) =>
                          .ok (false, hist ++ [expr], evs ++ [.invalidCommand])
                      | .ub => .ub
                      | .outOfFuel => .outOfFuel

/-- cmd_parser_t::execute (cmd.cpp lines 143 to 169): the ix based
splitting loop.  Each iteration takes the characters before the next
delimiter as the candidate statement, executes it when non-empty
(aborting on failure with a command-failed report), and continues past
the delimiter; lfuel bounds the iterations (one per segment). -/
def execLoop (h : Handlers) (env : Env) (fuel : Nat) : Nat → List Char → List String →
    Res (Bool × List String × List Ev)
  | 0, _, _ => .outOfFuel
  | lfuel + 1, cs, hist =>
      match (if cs.takeWhile (fun c => c ≠ ';') = [] then
               Res.ok (true, hist, ([] : List Ev))
             else
               match execute_imp h fuel env (String.mk (cs.takeWhile (fun c => c ≠ ';'))) hist with
               | .ok (true, h2, evs) => .ok (true, h2, evs)
               | .ok (false, h2, evs) =>
                   .ok (false, h2, evs ++ [.commandFailed (String.mk (cs.takeWhile (fun c => c ≠ ';')))])
               | r => r) with
      | .ok (true, h2, evs) =>
          match cs.dropWhile (fun c => c ≠ ';') with
          | [] => .ok (true, h2, evs)
          | _ :: rest2 =>
              match execLoop h env fuel lfuel rest2 h2 with
              | .ok (b, h3, evs2) => .ok (b, h3, evs ++ evs2)
              | r => r
      | r => r

def execute (h : Handlers) (fuel : Nat) (env : Env) (expr : String) (hist : List String) :
    Res (Bool × List String × List Ev) :=
  execLoop h env fuel (expr.length + 1) expr.data hist

/-- Spec-side comparator for the claim about execute: split the
expression on the semicolon delimiter up front. -/
def splitSemi : List Char → List (List Char)
  | [] => [[]]
  | c :: cs =>
      if c = ';' then [] :: splitSemi cs
      else
        match splitSemi cs with
        | [] => [[c]]
        | s :: ss => (c :: s) :: ss

/-- Spec-side comparator for the claim about execute, following the
words of the spec: for each segment in order, skip it when empty,
otherwise run executeOne; the first failing statement is reported as
command-failed and aborts the remaining statements; success when all
non-empty segments succeed. -/
def runSegs (h : Handlers) (fuel : Nat) (env : Env) :
    List (List Char) → List String → Res (Bool × List String × List Ev)
  | [], hist => .ok (true, hist, [])
  | seg :: rest, hist =>
      if seg = [] then runSegs h fuel env rest hist
      else
        match execute_imp h fuel env (String.mk seg) hist with
        | .ok (true, h2, evs) =>
            match runSegs h fuel env rest h2 with
            | .ok (b, h3, evs2) => .ok (b, h3, evs ++ evs2)
            | r => r
        | .ok (false, h2, evs) => .ok (false, h2, evs ++ [.commandFailed (String.mk seg)])
        | r => r

/-! Concrete fixtures used by counterexamples and witnesses: handlers
that always succeed, a root tree with a single start command, and a
root tree with a single cmd command. -/

def hTrue : Handlers := ⟨fun _ _ => true, fun _ => true⟩

def envStart : Env := ⟨[CmdNode.mk "start" []], [], []⟩

def envCmd : Env := ⟨[CmdNode.mk "cmd" []], [], []⟩

/-! ## cmd_util_t::levenshtein (cmd.cpp lines 117 to 139)

The C function keeps one DP column of uint32 cells in alloca storage.
Cell 0 of the column is never initialised before the outer loop, and
the outer loop body starts by overwriting it with x; so when BOTH
inputs are empty the function returns whatever junk the stack held.
The embedding threads that junk cell explicitly.  Distances are
bounded by the string lengths, far below the uint32 wrap, so cells are
modelled as Nat. -/

/-- The MIN3 macro of cmd.cpp line 119. -/
def min3 (a b c : Nat) : Nat :=
  if a < b then (if a < c then a else c) else (if b < c then b else c)

/-- The inner y loop (cmd.cpp lines 129 to 135): pairs holds s1[y-1]
together with the old column[y]; prev is the already updated
column[y-1]; lastdiag is the old column[y-1]. -/
def innerStep (c2 : Char) : List (Char × Nat) → Nat → Nat → List Nat
  | [], _, _ => []
  | (c1, coly) :: rest, prev, lastdiag =>
      min3 (coly + 1) (prev + 1) (lastdiag + (if c1 = c2 then 0 else 1)) ::
        innerStep c2 rest (min3 (coly + 1) (prev + 1) (lastdiag + (if c1 = c2 then 0 else 1))) coly

/-- The outer x loop (cmd.cpp lines 127 to 136): overwrite column[0]
with x, run the inner loop over s1 zipped with the old column tail,
with lastdiag starting at x - 1. -/
def outerLoop (s1 : List Char) : List Char → List Nat → Nat → List Nat
  | [], col, _ => col
  | c2 :: s2, col, x => outerLoop s1 s2 (x :: innerStep c2 (s1.zip col.tail) x (x - 1)) (x + 1)

/-- The initialisation loop (cmd.cpp lines 124 to 126): column[y] = y
for y = 1 .. s1len. -/
def ramp : Nat → List Char → List Nat
  | _, [] => []
  | k, _ :: s => (k + 1) :: ramp (k + 1) s

/-- cmd_util_t::levenshtein with the uninitialised cell made explicit:
junk is whatever the alloca cell 0 holds before the outer loop runs.
The result is column[s1len], the last cell of the final column. -/
def levenshtein (junk : Nat) (s1 s2 : String) : Nat :=
  (outerLoop s1.data s2.data (junk :: ramp 0 s1.data) 1).getLastD junk

/-- Reference Levenshtein distance, by structural recursion on both
lists; the cons-cons case mirrors the three DP branches. -/
def lev : List Char → List Char → Nat
  | [], t => t.length
  | s, [] => s.length
  | a :: s, b :: t =>
      min (lev s t + (if a = b then 0 else 1))
        (min (lev (a :: s) t + 1) (lev s (b :: t) + 1))
termination_by s t => s.length + t.length

/-- Edit scripts: ES s t n says that s can be turned into t at cost n
using copies (free), substitutions, insertions and deletions. -/
inductive ES : List Char → List Char → Nat → Prop where
  | nil : ES [] [] 0
  | copy (a : Char) {s t : List Char} {n : Nat} : ES s t n → ES (a :: s) (a :: t) n
  | subst (a b : Char) {s t : List Char} {n : Nat} : ES s t n → ES (a :: s) (b :: t) (n + 1)
  | ins (b : Char) {s t : List Char} {n : Nat} : ES s t n → ES s (b :: t) (n + 1)
  | del (a : Char) {s t : List Char} {n : Nat} : ES s t n → ES (a :: s) t (n + 1)

/-- The column of lev values for the extensions of pre by successive
prefixes of suf, against the second string t. -/
def colOf (pre suf : List Char) (t : List Char) : List Nat :=
  match suf with
  | [] => []
  | c :: suf2 => lev (pre ++ [c]) t :: colOf (pre ++ [c]) suf2 t

lemma strMatchAux_eq (s : List Char) : ∀ (t : List Char) (i : Nat),
    strMatchAux s t i =
      if t <+: s then
        (if s <+: t then INT_MAX else ((i : Int) + t.length))
      else -1 := by
  induction s with
  | nil =>
      intro t i
      cases t <;> simp [strMatchAux]
  | cons c s ih =>
      intro t i
      cases t with
      | nil => simp [strMatchAux]
      | cons d t =>
          by_cases h : c = d
          · subst h
            simp only [strMatchAux, if_pos rfl, ih t (i + 1), List.cons_prefix_cons,
              true_and]
            by_cases hp : t <+: s <;> simp [hp]
            by_cases hq : s <+: t <;> simp [hq]
            ring
          · simp only [strMatchAux, if_neg h, List.cons_prefix_cons]
            have hdc : ¬ (d = c ∧ t <+: s) := fun hx => h hx.1.symm
            simp [hdc]

/-- C1 (corrected): cmd_util_t::str_match returns the INT_MAX sentinel
when sub equals name exactly, the length of sub when sub is a proper
prefix of name -- including length 0 when sub is empty and name is not,
a non-negative score, contrary to the claim that this case is a negative
sentinel -- and -1 exactly when sub is not a prefix of name at all. -/
theorem str_match_prefix_characterization (name sub : String) :
    str_match name sub =
      if sub.data <+: name.data then
        (if name.data <+: sub.data then INT_MAX else (sub.length : Int))
      else -1 := by
  have h := strMatchAux_eq name.data sub.data 0
  have hl : sub.length = sub.data.length := rfl
  rw [str_match, h, hl]
  norm_num

/-- C1 counterexample: with name nonempty and sub empty the claim
demands a negative no-match sentinel, but str_match returns 0 (the
length of the empty prefix). -/
theorem str_match_empty_sub_counterexample :
    str_match "a" "" = 0 ∧ ¬ str_match "a" "" < 0 := by
  constructor <;> decide

lemma strtollLoop_digits_space (out0 : Nat) :
    ∀ (ds : List Char) (rest : List Char) (accum : Nat),
      (∀ d ∈ ds, '0' ≤ d ∧ d ≤ '9') →
      strtollLoop 10 out0 (ds ++ ' ' :: rest) accum = some out0 := by
  intro ds
  induction ds with
  | nil =>
      intro rest accum _
      simp [strtollLoop]
  | cons d ds ih =>
      intro rest accum hd
      have h1 : '0' ≤ d ∧ d ≤ '9' := hd d (List.mem_cons_self d ds)
      simp only [List.cons_append, strtollLoop, if_pos h1]
      exact ih rest _ fun x hx => hd x (List.mem_cons_of_mem d hx)

lemma strtollLoop_digits_bad (out0 : Nat) :
    ∀ (ds : List Char) (c : Char) (rest : List Char) (accum : Nat),
      (∀ d ∈ ds, '0' ≤ d ∧ d ≤ '9') →
      ¬ ('0' ≤ c ∧ c ≤ '9') → c ≠ ' ' →
      strtollLoop 10 out0 (ds ++ c :: rest) accum = none := by
  intro ds
  induction ds with
  | nil =>
      intro c rest accum _ hc hcs
      simp [strtollLoop, hc, hcs]
  | cons d ds ih =>
      intro c rest accum hd hc hcs
      have h1 : '0' ≤ d ∧ d ≤ '9' := hd d (List.mem_cons_self d ds)
      simp only [List.cons_append, strtollLoop, if_pos h1]
      exact ih c rest _ (fun x hx => hd x (List.mem_cons_of_mem d hx)) hc hcs

lemma strtollLoop_hex_total (out0 : Nat) :
    ∀ (cs : List Char) (accum : Nat), strtollLoop 16 out0 cs accum ≠ none := by
  intro cs
  induction cs with
  | nil => intro accum; simp [strtollLoop]
  | cons c rest ih =>
      intro accum
      simp only [strtollLoop]
      split
      · exact ih _
      · split
        next => split
                · exact ih _
                · split
                  · exact ih _
                  · exact ih _
        next h16 => exact absurd trivial h16

/-- C8 (corrected): the token "-5" parses to the signed value -5 and
"0x1F" parses to 31.  In decimal mode a space where a digit is expected
makes the parse report success, leaving the output at the value the
caller initialised it to, and any other non-digit reports failure; but
in hex mode (after a 0x prefix) the parse never fails: every character
that is not a hex digit is silently skipped after the accumulator has
already been multiplied by 16, contrary to the claim that any trailing
non-numeric character other than a space reports failure. -/
theorem strtoll_parsing :
    tokenGet "-5" = some (-5) ∧
    tokenGet "0x1F" = some 31 ∧
    (∀ (out0 : Nat) (ds rest : List Char) (accum : Nat),
      (∀ d ∈ ds, '0' ≤ d ∧ d ≤ '9') →
      strtollLoop 10 out0 (ds ++ ' ' :: rest) accum = some out0) ∧
    (∀ (out0 : Nat) (ds : List Char) (c : Char) (rest : List Char) (accum : Nat),
      (∀ d ∈ ds, '0' ≤ d ∧ d ≤ '9') →
      ¬ ('0' ≤ c ∧ c ≤ '9') → c ≠ ' ' →
      strtollLoop 10 out0 (ds ++ c :: rest) accum = none) ∧
    (∀ (out0 : Nat) (cs : List Char) (accum : Nat),
      strtollLoop 16 out0 cs accum ≠ none) := by
  refine ⟨by decide, by decide, ?_, ?_, ?_⟩
  · intro out0 ds rest accum h
    exact strtollLoop_digits_space out0 ds rest accum h
  · intro out0 ds c rest accum h hc hcs
    exact strtollLoop_digits_bad out0 ds c rest accum h hc hcs
  · intro out0 cs accum
    exact strtollLoop_hex_total out0 cs accum

/-- C8 witness: the general clauses of strtoll_parsing applied at
concrete inputs -- "12 x" parses successfully to the caller-initialised
value, "12z" fails, and the hex scan of a garbage character does not
fail. -/
theorem strtoll_parsing_witness :
    strtollLoop 10 7 ['1', '2', ' ', 'x'] 0 = some 7 ∧
    strtollLoop 10 7 ['1', '2', 'z'] 0 = none ∧
    strtollLoop 16 7 ['Z'] 0 ≠ none := by
  refine ⟨?_, ?_, ?_⟩
  · exact strtoll_parsing.2.2.1 7 ['1', '2'] ['x'] 0 (by decide)
  · exact strtoll_parsing.2.2.2.1 7 ['1', '2'] 'z' [] 0 (by decide) (by decide) (by decide)
  · exact strtoll_parsing.2.2.2.2 7 ['Z'] 0

/-- C8 counterexample: the claim says any trailing non-numeric
character other than a space causes the parse to fail, but the token
"0x1G" parses successfully (the G is skipped after the accumulator was
multiplied by 16, yielding 16). -/
theorem strtoll_hex_garbage_counterexample :
    tokenGet "0x1G" = some 16 ∧ tokenGet "0x1G" ≠ none := by
  constructor <;> decide

/-- The skip loop of tokenize advances only over spaces, so a leading
tab in the unconsumed input is re-examined forever: no amount of fuel
completes the loop. -/
lemma tokLoop_tab_diverges (idents : List (String × Nat)) :
    ∀ (fuel : Nat) (pending : List Char) (r : List Char) (st : CmdTokens),
      tokLoop idents fuel pending ('\t' :: r) st = none := by
  intro fuel
  induction fuel with
  | zero => intro pending r st; rfl
  | succ fuel ih =>
      intro pending r st
      simp only [tokLoop, if_pos (Or.inr rfl)]
      have hd : List.dropWhile (fun ch => ch = ' ') ('\t' :: r) = '\t' :: r := by
        simp [List.dropWhile]
      rw [hd]
      exact ih [] r _

/-- C4 (code_bug): the tokenizer is meant to treat runs of spaces and
tabs alike (its separator test checks both), but the whitespace-skip
loop advances only over spaces, so any tab separator makes tokenize
loop forever: "a\tb" never finishes under any fuel, while "a b" and
"a  b" both tokenize to the words a and b. -/
theorem tokenize_tab_hangs :
    (∀ fuel : Nat, tokLoop [] fuel [] "a\tb".data emptyTokens = none) ∧
    tokenize [] "a b" = some ⟨["a", "b"], "", ["a", "b"], [], []⟩ ∧
    tokenize [] "a  b" = some ⟨["a", "b"], "", ["a", "b"], [], []⟩ := by
  refine ⟨?_, by decide, by decide⟩
  intro fuel
  cases fuel with
  | zero => rfl
  | succ fuel =>
      have : "a\tb".data = 'a' :: '\t' :: 'b' :: [] := rfl
      rw [this]
      simp only [tokLoop]
      exact tokLoop_tab_diverges [] fuel ['a'] ['b'] emptyTokens

lemma identSubst_of_head_ne (idents : List (String × Nat)) (w : String)
    (hw : w.data.head? ≠ some '$') : identSubst idents w = w := by
  unfold identSubst
  split
  next rest heq => rw [heq] at hw; simp at hw
  next => rfl

lemma head_dash_ne_empty (w : String) (hw : w.data.head? = some '-') : w ≠ "" := by
  intro h
  rw [h] at hw
  exact (by decide : ¬ ("" : String).data.head? = some '-') hw

lemma push_flag_fresh (idents : List (String × Nat)) (st : CmdTokens) (w : String)
    (hw : w.data.head? = some '-') (hst : st.stage = "") :
    push idents st w = { st with raw := st.raw ++ [w], stage := w } := by
  have hw0 : w ≠ "" := by
    intro h
    rw [h] at hw
    exact (by decide : ¬ ("" : String).data.head? = some '-') hw
  have hs : identSubst idents w = w := by
    refine identSubst_of_head_ne idents w ?_
    rw [hw]
    decide
  simp [push, hw0, hs, hw, hst]

lemma push_value_pair (idents : List (String × Nat)) (st1 : CmdTokens) (v : String)
    (hv : v ≠ "") (hv2 : (identSubst idents v).data.head? ≠ some '-')
    (hstage : st1.stage ≠ "") :
    push idents st1 v =
      { st1 with raw := st1.raw ++ [identSubst idents v],
                 pairs := insertPair st1.pairs st1.stage (identSubst idents v),
                 stage := "" } := by
  simp [push, hv, hv2, hstage]

lemma push_flush_flag (idents : List (String × Nat)) (st1 : CmdTokens)
    (hstage : st1.stage ≠ "") :
    push idents st1 "" =
      { st1 with flags := insertFlag st1.flags st1.stage, stage := "" } := by
  simp [push, hstage]

/-- C6 (confirmed): tokenizing "-v foo bar -x" yields flags consisting
of -x alone, the single pair -v mapped to foo, positional tokens [bar],
and the four raw words; moreover in general a flag word followed by a
non-flag word commits a pair (not two independent entries), and a
staged flag that is never followed by a value is committed to the flag
set by the empty flush marker. -/
theorem tokenize_flags_pairs_example :
    tokenize [] "-v foo bar -x" =
      some ⟨["-v", "foo", "bar", "-x"], "", ["bar"], [("-v", "foo")], ["-x"]⟩ ∧
    (∀ (idents : List (String × Nat)) (st : CmdTokens) (w v : String),
      w.data.head? = some '-' → v ≠ "" →
      (identSubst idents v).data.head? ≠ some '-' → st.stage = "" →
      push idents (push idents st w) v =
        { st with raw := st.raw ++ [w, identSubst idents v],
                  pairs := insertPair st.pairs w (identSubst idents v),
                  stage := "" }) ∧
    (∀ (idents : List (String × Nat)) (st : CmdTokens) (w : String),
      w.data.head? = some '-' → st.stage = "" →
      push idents (push idents st w) "" =
        { st with raw := st.raw ++ [w],
                  flags := insertFlag st.flags w,
                  stage := "" }) := by
  refine ⟨by decide, ?_, ?_⟩
  · intro idents st w v hw hv hv2 hst
    rw [push_flag_fresh idents st w hw hst,
      push_value_pair idents _ v hv hv2 (head_dash_ne_empty w hw)]
    simp
  · intro idents st w hw hst
    rw [push_flag_fresh idents st w hw hst,
      push_flush_flag idents _ (head_dash_ne_empty w hw)]

/-- C6 witness: the pair and flag clauses of tokenize_flags_pairs_example
applied to the staged flag -v followed by the value foo, and to the
staged flag -x flushed by the empty marker. -/
theorem tokenize_flags_pairs_example_witness :
    push [] (push [] emptyTokens "-v") "foo" =
      ⟨["-v", "foo"], "", [], [("-v", "foo")], []⟩ ∧
    push [] (push [] emptyTokens "-x") "" = ⟨["-x"], "", [], [], ["-x"]⟩ := by
  constructor
  · rw [tokenize_flags_pairs_example.2.1 [] emptyTokens "-v" "foo"
      (by decide) (by decide) (by decide) rfl]
    decide
  · rw [tokenize_flags_pairs_example.2.2 [] emptyTokens "-x" (by decide) rfl]
    decide

/-- The full invariant preserved by a single push: raw is at least as
long as positional plus pairs plus the staged flag (0 or 1). -/
lemma insertPair_length (k v : String) :
    ∀ (m : List (String × String)), (insertPair m k v).length ≤ m.length + 1 := by
  intro m
  induction m with
  | nil => simp [insertPair]
  | cons p rest ih =>
      obtain ⟨k0, v0⟩ := p
      by_cases h : k0 = k <;> simp [insertPair, h]
      omega

lemma push_inv (idents : List (String × Nat)) (w : String) (st : CmdTokens)
    (h : st.tokens.length + st.pairs.length + (if st.stage = "" then 0 else 1) ≤
      st.raw.length) :
    (push idents st w).tokens.length + (push idents st w).pairs.length +
      (if (push idents st w).stage = "" then 0 else 1) ≤ (push idents st w).raw.length := by
  unfold push
  by_cases hw : w = ""
  · by_cases hs : st.stage = "" <;> simp [hw, hs] at h ⊢ <;> omega
  · by_cases hd : (identSubst idents w).data.head? = some '-'
    · by_cases hs : st.stage = "" <;>
        simp [hw, hd, hs] at h ⊢ <;>
        split <;> omega
    · by_cases hs : st.stage = ""
      · simp [hw, hd, hs] at h ⊢
        omega
      · simp [hw, hd, hs] at h ⊢
        have := insertPair_length st.stage (identSubst idents w) st.pairs
        omega

lemma foldl_push_inv (idents : List (String × Nat)) :
    ∀ (ws : List String) (st : CmdTokens),
      st.tokens.length + st.pairs.length + (if st.stage = "" then 0 else 1) ≤
        st.raw.length →
      (ws.foldl (push idents) st).tokens.length + (ws.foldl (push idents) st).pairs.length +
        (if (ws.foldl (push idents) st).stage = "" then 0 else 1) ≤
        (ws.foldl (push idents) st).raw.length := by
  intro ws
  induction ws with
  | nil => intro st h; simpa using h
  | cons w ws ih =>
      intro st h
      exact ih (push idents st w) (push_inv idents w st h)

/-- C5 (confirmed): any token stream built from a sequence of push
operations has raw at least as long as positional plus pairs, and
token_pop succeeds exactly when the front of raw equals the front of
positional, in which case it removes both fronts, keeping the two
sequences aligned (any misalignment trips the assertion, modelled as
none). -/
theorem tokens_invariant :
    (∀ (idents : List (String × Nat)) (ws : List String),
      (pushList idents ws).tokens.length + (pushList idents ws).pairs.length ≤
        (pushList idents ws).raw.length) ∧
    (∀ st st2 : CmdTokens,
      token_pop st = some st2 ↔
        ∃ t rs ts, st.raw = t :: rs ∧ st.tokens = t :: ts ∧
          st2 = { st with raw := rs, tokens := ts }) := by
  constructor
  · intro idents ws
    have h := foldl_push_inv idents ws emptyTokens (by simp [emptyTokens])
    have : (pushList idents ws) = ws.foldl (push idents) emptyTokens := rfl
    rw [this]
    omega
  · intro st st2
    constructor
    · intro h
      unfold token_pop at h
      rcases ht : st.tokens with _ | ⟨t, ts⟩ <;> rcases hr : st.raw with _ | ⟨r, rs⟩ <;>
        rw [ht, hr] at h <;> simp only [] at h
      · exact absurd h (by simp)
      · exact absurd h (by simp)
      · exact absurd h (by simp)
      · by_cases hrt : r = t
        · rw [if_pos hrt] at h
          subst hrt
          refine ⟨r, rs, ts, rfl, rfl, ?_⟩
          injection h with h2
          exact h2.symm
        · rw [if_neg hrt] at h
          exact absurd h (by simp)
    · rintro ⟨t, rs, ts, h1, h2, h3⟩
      unfold token_pop
      rw [h1, h2, h3]
      show (if t = t then
          some { st with tokens := ts, raw := rs } else none) =
        some { st with tokens := ts, raw := rs }
      rw [if_pos rfl]

/-- C5 witness: the invariant instantiated on the pushes of the words
-v foo bar, and a successful aligned pop. -/
theorem tokens_invariant_witness :
    (pushList [] ["-v", "foo", "bar"]).tokens.length +
        (pushList [] ["-v", "foo", "bar"]).pairs.length ≤
      (pushList [] ["-v", "foo", "bar"]).raw.length ∧
    token_pop ⟨["a", "b"], "", ["a"], [], []⟩ = some ⟨["b"], "", [], [], []⟩ :=
  ⟨tokens_invariant.1 [] ["-v", "foo", "bar"],
   (tokens_invariant.2 ⟨["a", "b"], "", ["a"], [], []⟩ ⟨["b"], "", [], [], []⟩).mpr
     ⟨"a", ["b"], [], rfl, rfl, rfl⟩⟩

lemma length_dropWhile_le (p : Char → Bool) (l : List Char) :
    (l.dropWhile p).length ≤ l.length := by
  induction l with
  | nil => simp
  | cons c cs ih =>
      rw [List.dropWhile_cons]
      split
      · simp only [List.length_cons]
        omega
      · simp

lemma splitSemi_eq (cs : List Char) :
    splitSemi cs = cs.takeWhile (fun c => c ≠ ';') ::
      (match cs.dropWhile (fun c => c ≠ ';') with
       | [] => []
       | _ :: r => splitSemi r) := by
  induction cs with
  | nil => simp [splitSemi]
  | cons c cs ih =>
      by_cases hc : c = ';'
      · subst hc
        simp [splitSemi, List.takeWhile_cons, List.dropWhile_cons]
      · rw [splitSemi, if_neg hc, ih]
        simp [List.takeWhile_cons, List.dropWhile_cons, hc]

lemma execLoop_eq_runSegs (h : Handlers) (env : Env) (fuel : Nat) :
    ∀ (lfuel : Nat) (cs : List Char) (hist : List String),
      cs.length < lfuel →
      execLoop h env fuel lfuel cs hist = runSegs h fuel env (splitSemi cs) hist := by
  intro lfuel
  induction lfuel with
  | zero => intro cs hist hlt; omega
  | succ lfuel ih =>
      intro cs hist hlt
      rw [splitSemi_eq cs, execLoop, runSegs]
      by_cases hseg : cs.takeWhile (fun c => c ≠ ';') = []
      · rw [if_pos hseg, if_pos hseg]
        dsimp only
        cases hdrop : cs.dropWhile (fun c => c ≠ ';') with
        | nil => rfl
        | cons d rest2 =>
            have hlen : rest2.length < lfuel := by
              have h1 := length_dropWhile_le (fun c => c ≠ ';') cs
              rw [hdrop] at h1
              simp only [List.length_cons] at h1
              omega
            dsimp only
            rw [ih rest2 hist hlen]
            cases runSegs h fuel env (splitSemi rest2) hist with
            | ok v => obtain ⟨b, h3, evs2⟩ := v; simp
            | ub => rfl
            | outOfFuel => rfl
      · rw [if_neg hseg, if_neg hseg]
        cases hexe : execute_imp h fuel env (String.mk (cs.takeWhile (fun c => c ≠ ';'))) hist with
        | ok v =>
            obtain ⟨b, h2, evs⟩ := v
            cases b with
            | true =>
                dsimp only
                cases hdrop : cs.dropWhile (fun c => c ≠ ';') with
                | nil =>
                    dsimp only
                    simp [runSegs]
                | cons d rest2 =>
                    have hlen : rest2.length < lfuel := by
                      have h1 := length_dropWhile_le (fun c => c ≠ ';') cs
                      rw [hdrop] at h1
                      simp only [List.length_cons] at h1
                      omega
                    dsimp only
                    rw [ih rest2 h2 hlen]
            | false => rfl
        | ub => rfl
        | outOfFuel => rfl

/-- C7 (confirmed): cmd_parser_t::execute is equivalent to splitting
the expression on the semicolon delimiter and running executeOne on
each non-empty segment in order, where the first failing segment is
reported as command-failed and aborts the remaining segments, and an
expression whose non-empty segments all succeed (or that has only
empty segments) returns success -- the behaviour of the runSegs
comparator written from the words of the claim. -/
theorem execute_splits_statements (h : Handlers) (fuel : Nat) (env : Env)
    (expr : String) (hist : List String) :
    execute h fuel env expr hist = runSegs h fuel env (splitSemi expr.data) hist := by
  have hlen : expr.data.length < expr.length + 1 := by
    have : expr.length = expr.data.length := rfl
    omega
  exact execLoop_eq_runSegs h env fuel (expr.length + 1) expr.data hist hlen

/-- C10 (confirmed): execute_imp evaluates last_cmd, that is
history_.back(), before pushing the new statement, so on an empty
history the very first thing it does is an unguarded read of the back
of an empty vector, modelled as the ub result, whatever the fuel, the
environment and the statement. -/
theorem execute_imp_empty_history_ub (h : Handlers) (fuel : Nat) (env : Env)
    (expr : String) :
    execute_imp h (fuel + 1) env expr [] = .ub := rfl

/-- C2 (corrected): a statement that tokenizes to zero positional
tokens repeats the immediately preceding history entry only when the
submitted statement itself is a non-empty string (for instance all
blanks): the code tests the emptiness of the just-pushed current
statement, not the existence of a prior non-blank entry.  A non-empty
blank statement echoes the previous history entry (whatever it is,
blank or not) and recursively executes it; the empty statement fails
without echoing or executing anything, even when a successful statement
directly precedes it. -/
theorem execute_imp_blank_repeat (h : Handlers) (fuel : Nat) (env : Env)
    (expr : String) (hist : List String) (prev : String) (ts : CmdTokens)
    (hlast : hist.getLast? = some prev)
    (htok : tokenize env.idents expr = some ts)
    (hts : ts.tokens = []) :
    (expr ≠ "" →
      execute_imp h (fuel + 1) env expr hist =
        match execute_imp h fuel env prev (hist ++ [expr]) with
        | .ok (b, h3, evs) => .ok (b, h3, .echoPrev prev :: evs)
        | r => r) ∧
    (expr = "" → execute_imp h (fuel + 1) env expr hist = .ok (false, hist ++ [expr], [])) := by
  constructor
  · intro hne
    conv_lhs => rw [execute_imp]
    simp only [hlast, htok, hts, List.getLast?_concat, if_neg hne]
  · intro he
    rw [execute_imp]
    simp only [hlast, htok, hts, List.getLast?_concat, if_pos he]

/-- C2 witness: after the successful statement start, the all-blank
statement consisting of one space echoes start and re-executes it,
appending the repeated command to the history again. -/
theorem execute_imp_blank_repeat_witness :
    execute_imp hTrue 10 envStart " " ["start"] =
      .ok (true, ["start", " ", "start"],
        [.echoPrev "start", .execCall "start" emptyTokens]) := by
  have h := (execute_imp_blank_repeat hTrue 9 envStart " " ["start"] "start" emptyTokens
    rfl (by decide) rfl).1 (by decide)
  rw [h]
  decide

/-- C2 counterexample: the claim says the empty statement submitted
immediately after a successful start re-executes start, but executeOne
on the empty string returns failure with no echo and no execution at
all (the trace is empty). -/
theorem execute_imp_empty_statement_counterexample :
    execute_imp hTrue 10 envStart "" ["start"] = .ok (false, ["start", ""], []) ∧
    Ev.echoPrev "start" ∉ ([] : List Ev) := by
  constructor
  · decide
  · simp

/-- C3 (corrected): once a target node is resolved by the tree walk,
the dispatcher inspects the last remaining POSITIONAL token, not the
last remaining raw token: when the positional deque is non-empty and
ends with the literal ?, on_usage is called, otherwise on_execute is
called with the remaining tokens. -/
theorem dispatch_question_positional (h : Handlers) (fuel : Nat) (env : Env)
    (expr : String) (hist : List String) (prev : String) (ts : CmdTokens)
    (t0 : String) (rest : List String) (c : CmdNode) (ts2 : CmdTokens) (evs : List Ev)
    (hlast : hist.getLast? = some prev)
    (htok : tokenize env.idents expr = some ts)
    (hts : ts.tokens = t0 :: rest)
    (halias : alias_find env.aliases t0 = none)
    (hwalk : walkLoop (ts.tokens.length + 1) env.root none ts = .ok (some c, ts2, evs)) :
    execute_imp h (fuel + 1) env expr hist =
      .ok ((dispatchNode h c ts2).1, hist ++ [expr], evs ++ [(dispatchNode h c ts2).2]) ∧
    (ts2.tokens ≠ [] → ts2.tokens.getLast? = some "?" →
      dispatchNode h c ts2 = (h.husage c, .usageCall c.name)) ∧
    (ts2.tokens.getLast? ≠ some "?" →
      dispatchNode h c ts2 = (h.hexec c ts2, .execCall c.name ts2)) := by
  refine ⟨?_, ?_, ?_⟩
  · rw [hts] at hwalk
    rw [execute_imp]
    simp only [hlast, htok, hts, halias, hwalk]
  · intro _ hq
    unfold dispatchNode
    rw [hq]
    dsimp only
    rw [if_pos rfl]
  · intro hq
    unfold dispatchNode
    cases hl : ts2.tokens.getLast? with
    | none => rfl
    | some t =>
        rw [hl] at hq
        dsimp only
        rw [if_neg (fun ht : t = "?" => hq (by rw [ht]))]

/-- C3 witness: for the statement cmd ? the remaining positional deque
after resolving cmd is the single token ?, so on_usage is invoked. -/
theorem dispatch_question_positional_witness :
    execute_imp hTrue 5 envCmd "cmd ?" ["x"] =
      .ok (true, ["x", "cmd ?"], [.usageCall "cmd"]) := by
  have h := (dispatch_question_positional hTrue 4 envCmd "cmd ?" ["x"] "x"
    ⟨["cmd", "?"], "", ["cmd", "?"], [], []⟩ "cmd" ["?"] (CmdNode.mk "cmd" [])
    ⟨["?"], "", ["?"], [], []⟩ []
    rfl (by decide) rfl rfl rfl).1
  rw [h]
  decide

/-- C3 counterexample: in the statement cmd -v ? the word ? becomes the
pair value of the flag -v, so after resolving cmd the remaining raw
deque still ends with ? while the positional deque is empty; the claim
says the dispatcher must call on_usage, but it calls on_execute. -/
theorem dispatch_raw_question_counterexample :
    execute_imp hTrue 5 envCmd "cmd -v ?" ["x"] =
      .ok (true, ["x", "cmd -v ?"],
        [.execCall "cmd" ⟨["-v", "?"], "", [], [("-v", "?")], []⟩]) ∧
    (⟨["-v", "?"], "", [], [("-v", "?")], []⟩ : CmdTokens).raw.getLast? = some "?" ∧
    Ev.usageCall "cmd" ∉
      [Ev.execCall "cmd" (⟨["-v", "?"], "", [], [("-v", "?")], []⟩ : CmdTokens)] := by
  refine ⟨by decide, by decide, by decide⟩

lemma lev_nil_left (t : List Char) : lev [] t = t.length := by
  cases t <;> simp [lev]

lemma lev_nil_right (s : List Char) : lev s [] = s.length := by
  cases s <;> simp [lev]

lemma lev_cons_cons (a b : Char) (s t : List Char) :
    lev (a :: s) (b :: t) =
      min (lev s t + (if a = b then 0 else 1))
        (min (lev (a :: s) t + 1) (lev s (b :: t) + 1)) := by
  rw [lev]

lemma lev_le_sub (a b : Char) (s t : List Char) :
    lev (a :: s) (b :: t) ≤ lev s t + (if a = b then 0 else 1) := by
  rw [lev_cons_cons]
  exact min_le_left _ _

lemma lev_le_ins (b : Char) (s t : List Char) : lev s (b :: t) ≤ lev s t + 1 := by
  cases s with
  | nil => simp [lev_nil_left]
  | cons a s =>
      rw [lev_cons_cons]
      exact le_trans (min_le_right _ _) (le_trans (min_le_left _ _) (by simp))

lemma lev_le_del (a : Char) (s t : List Char) : lev (a :: s) t ≤ lev s t + 1 := by
  cases t with
  | nil => simp [lev_nil_right]
  | cons b t =>
      rw [lev_cons_cons]
      exact le_trans (min_le_right _ _) (min_le_right _ _)

lemma lev_le_of_ES : ∀ {s t : List Char} {n : Nat}, ES s t n → lev s t ≤ n := by
  intro s t n hes
  induction hes with
  | nil => simp [lev_nil_left]
  | @copy a s2 t2 n2 h ih =>
      have hb := lev_le_sub a a s2 t2
      simp only [if_pos rfl, Nat.add_zero] at hb
      exact le_trans hb ih
  | @subst a b s2 t2 n2 h ih =>
      refine le_trans (lev_le_sub a b s2 t2) ?_
      have : (if a = b then 0 else 1) ≤ 1 := by split <;> omega
      omega
  | @ins b s2 t2 n2 h ih => exact le_trans (lev_le_ins b s2 t2) (by omega)
  | @del a s2 t2 n2 h ih => exact le_trans (lev_le_del a s2 t2) (by omega)

lemma ES_nil_left : ∀ t : List Char, ES [] t t.length := by
  intro t
  induction t with
  | nil => exact ES.nil
  | cons b t ih => exact ES.ins b ih

lemma ES_nil_right : ∀ s : List Char, ES s [] s.length := by
  intro s
  induction s with
  | nil => exact ES.nil
  | cons a s ih => exact ES.del a ih

lemma min3_or (a b c : Nat) : min3 a b c = a ∨ min3 a b c = b ∨ min3 a b c = c := by
  unfold min3
  split <;> split <;> simp

lemma min_or (a b : Nat) : min a b = a ∨ min a b = b := by
  rcases le_total a b with h | h
  · left; exact min_eq_left h
  · right; exact min_eq_right h

/-- A witnessing edit script of exactly the lev cost always exists. -/
lemma lev_ES : ∀ (s t : List Char), ES s t (lev s t) := by
  suffices H : ∀ (k : Nat) (s t : List Char), s.length + t.length ≤ k → ES s t (lev s t) by
    intro s t
    exact H (s.length + t.length) s t le_rfl
  intro k
  induction k with
  | zero =>
      intro s t hk
      have hs : s = [] := by cases s <;> simp_all
      have ht : t = [] := by cases t <;> simp_all
      subst hs; subst ht
      simpa [lev_nil_left] using ES.nil
  | succ k ih =>
      intro s t hk
      cases s with
      | nil => simpa [lev_nil_left] using ES_nil_left t
      | cons a s =>
          cases t with
          | nil => simpa [lev_nil_right] using ES_nil_right (a :: s)
          | cons b t =>
              rw [lev_cons_cons]
              rcases min_or (lev s t + (if a = b then 0 else 1))
                (min (lev (a :: s) t + 1) (lev s (b :: t) + 1)) with h1 | h1
              · rw [h1]
                have hes := ih s t (by simp at hk ⊢; omega)
                by_cases hab : a = b
                · subst hab
                  simpa [if_pos rfl] using ES.copy a hes
                · simpa [if_neg hab] using ES.subst a b hes
              · rw [h1]
                rcases min_or (lev (a :: s) t + 1) (lev s (b :: t) + 1) with h2 | h2
                · rw [h2]
                  exact ES.ins b (ih (a :: s) t (by simp at hk ⊢; omega))
                · rw [h2]
                  exact ES.del a (ih s (b :: t) (by simp at hk ⊢; omega))

lemma ES_swap : ∀ {s t : List Char} {n : Nat}, ES s t n → ES t s n := by
  intro s t n hes
  induction hes with
  | nil => exact ES.nil
  | copy a h ih => exact ES.copy a ih
  | subst a b h ih => exact ES.subst b a ih
  | ins b h ih => exact ES.del b ih
  | del a h ih => exact ES.ins a ih

lemma lev_symm (s t : List Char) : lev s t = lev t s :=
  le_antisymm (lev_le_of_ES (ES_swap (lev_ES t s))) (lev_le_of_ES (ES_swap (lev_ES s t)))

lemma ES_refl : ∀ s : List Char, ES s s 0 := by
  intro s
  induction s with
  | nil => exact ES.nil
  | cons a s ih => exact ES.copy a ih

lemma lev_self (s : List Char) : lev s s = 0 :=
  Nat.le_zero.mp (lev_le_of_ES (ES_refl s))

/-- Composition of edit scripts, phrased directly as the resulting lev
bound; strong induction on cost-plus-middle-length. -/
lemma ES_comp : ∀ (k m n : Nat) (a b c : List Char),
    m + n + b.length ≤ k → ES a b m → ES b c n → lev a c ≤ m + n := by
  intro k
  induction k with
  | zero =>
      intro m n a b c hk h1 h2
      have hm : m = 0 := by omega
      have hn : n = 0 := by omega
      have hb : b = [] := by cases b <;> simp_all
      subst hm; subst hn; subst hb
      cases h1 with
      | nil =>
          cases h2 with
          | nil => simp [lev_nil_left]
  | succ k ih =>
      intro m n a b c hk h1 h2
      cases h2 with
      | nil =>
          simpa using lev_le_of_ES h1
      | copy z h2x =>
          rename_i b2 c2
          cases h1 with
          | copy _ h1x =>
              rename_i a2
              have hrec := ih m n a2 b2 c2 (by simp at hk; omega) h1x h2x
              have hb := lev_le_sub z z a2 c2
              simp only [if_pos rfl, Nat.add_zero] at hb
              exact le_trans hb hrec
          | subst x _ h1x =>
              rename_i a2 m2
              have hrec := ih m2 n a2 b2 c2 (by simp at hk; omega) h1x h2x
              refine le_trans (lev_le_sub x z a2 c2) ?_
              have : (if x = z then 0 else 1) ≤ 1 := by split <;> omega
              omega
          | ins _ h1x =>
              rename_i m2
              have hrec := ih m2 n a b2 c2 (by simp at hk; omega) h1x h2x
              exact le_trans (lev_le_ins z a c2) (by omega)
          | del x h1x =>
              rename_i a2 m2
              have hrec := ih m2 n a2 (z :: b2) (z :: c2) (by simp at hk ⊢; omega)
                h1x (ES.copy z h2x)
              exact le_trans (lev_le_del x a2 (z :: c2)) (by omega)
      | subst y z h2x =>
          rename_i b2 c2 n2
          cases h1 with
          | copy _ h1x =>
              rename_i a2
              have hrec := ih m n2 a2 b2 c2 (by simp at hk; omega) h1x h2x
              refine le_trans (lev_le_sub y z a2 c2) ?_
              have : (if y = z then 0 else 1) ≤ 1 := by split <;> omega
              omega
          | subst x _ h1x =>
              rename_i a2 m2
              have hrec := ih m2 n2 a2 b2 c2 (by simp at hk; omega) h1x h2x
              refine le_trans (lev_le_sub x z a2 c2) ?_
              have : (if x = z then 0 else 1) ≤ 1 := by split <;> omega
              omega
          | ins _ h1x =>
              rename_i m2
              have hrec := ih m2 n2 a b2 c2 (by simp at hk; omega) h1x h2x
              exact le_trans (lev_le_ins z a c2) (by omega)
          | del x h1x =>
              rename_i a2 m2
              have hrec := ih m2 (n2 + 1) a2 (y :: b2) (z :: c2) (by simp at hk ⊢; omega)
                h1x (ES.subst y z h2x)
              exact le_trans (lev_le_del x a2 (z :: c2)) (by omega)
      | ins z h2x =>
          rename_i c2 n2
          have hrec := ih m n2 a b c2 (by omega) h1 h2x
          exact le_trans (lev_le_ins z a c2) (by omega)
      | del y h2x =>
          rename_i b2 n2
          cases h1 with
          | copy _ h1x =>
              rename_i a2
              have hrec := ih m n2 a2 b2 c (by simp at hk; omega) h1x h2x
              exact le_trans (lev_le_del y a2 c) (by omega)
          | subst x _ h1x =>
              rename_i a2 m2
              have hrec := ih m2 n2 a2 b2 c (by simp at hk; omega) h1x h2x
              exact le_trans (lev_le_del x a2 c) (by omega)
          | ins _ h1x =>
              rename_i m2
              have hrec := ih m2 n2 a b2 c (by simp at hk; omega) h1x h2x
              omega
          | del x h1x =>
              rename_i a2 m2
              have hrec := ih m2 (n2 + 1) a2 (y :: b2) c (by simp at hk ⊢; omega)
                h1x (ES.del y h2x)
              exact le_trans (lev_le_del x a2 c) (by omega)

lemma lev_triangle (a b c : List Char) : lev a c ≤ lev a b + lev b c :=
  ES_comp (lev a b + lev b c + b.length) (lev a b) (lev b c) a b c le_rfl
    (lev_ES a b) (lev_ES b c)

lemma ES_snoc_copy (x : Char) : ∀ {s t : List Char} {n : Nat},
    ES s t n → ES (s ++ [x]) (t ++ [x]) n := by
  intro s t n hes
  induction hes with
  | nil => exact ES.copy x ES.nil
  | copy a h ih => exact ES.copy a ih
  | subst a b h ih => exact ES.subst a b ih
  | ins b h ih => exact ES.ins b ih
  | del a h ih => exact ES.del a ih

lemma ES_snoc_subst (x y : Char) : ∀ {s t : List Char} {n : Nat},
    ES s t n → ES (s ++ [x]) (t ++ [y]) (n + 1) := by
  intro s t n hes
  induction hes with
  | nil => exact ES.subst x y ES.nil
  | copy a h ih => exact ES.copy a ih
  | subst a b h ih => exact ES.subst a b ih
  | ins b h ih => exact ES.ins b ih
  | del a h ih => exact ES.del a ih

lemma ES_snoc_ins (y : Char) : ∀ {s t : List Char} {n : Nat},
    ES s t n → ES s (t ++ [y]) (n + 1) := by
  intro s t n hes
  induction hes with
  | nil => exact ES.ins y ES.nil
  | copy a h ih => exact ES.copy a ih
  | subst a b h ih => exact ES.subst a b ih
  | ins b h ih => exact ES.ins b ih
  | del a h ih => exact ES.del a ih

lemma ES_snoc_del (x : Char) : ∀ {s t : List Char} {n : Nat},
    ES s t n → ES (s ++ [x]) t (n + 1) := by
  intro s t n hes
  induction hes with
  | nil => exact ES.del x ES.nil
  | copy a h ih => exact ES.copy a ih
  | subst a b h ih => exact ES.subst a b ih
  | ins b h ih => exact ES.ins b ih
  | del a h ih => exact ES.del a ih

lemma ES_reverse : ∀ {s t : List Char} {n : Nat},
    ES s t n → ES s.reverse t.reverse n := by
  intro s t n hes
  induction hes with
  | nil => exact ES.nil
  | copy a h ih => simpa [List.reverse_cons] using ES_snoc_copy a ih
  | subst a b h ih => simpa [List.reverse_cons] using ES_snoc_subst a b ih
  | ins b h ih => simpa [List.reverse_cons] using ES_snoc_ins b ih
  | del a h ih => simpa [List.reverse_cons] using ES_snoc_del a ih

lemma lev_reverse (s t : List Char) : lev s.reverse t.reverse = lev s t := by
  refine le_antisymm (lev_le_of_ES (ES_reverse (lev_ES s t))) ?_
  have h := lev_le_of_ES (ES_reverse (lev_ES s.reverse t.reverse))
  simpa using h

lemma min3_eq (x y z : Nat) : min3 x y z = min z (min x y) := by
  simp only [min3, Nat.min_def]
  repeat' split
  all_goals omega

/-- The append form of the lev recurrence, obtained from the cons form
through string reversal; the min3 argument order matches the inner DP
loop. -/
lemma lev_append (u t : List Char) (c1 c2 : Char) :
    lev (u ++ [c1]) (t ++ [c2]) =
      min3 (lev (u ++ [c1]) t + 1) (lev u (t ++ [c2]) + 1)
        (lev u t + (if c1 = c2 then 0 else 1)) := by
  have h1 : lev (u ++ [c1]) (t ++ [c2]) = lev (c1 :: u.reverse) (c2 :: t.reverse) := by
    rw [← lev_reverse (u ++ [c1]) (t ++ [c2])]
    simp [List.reverse_append]
  have e1 : lev u.reverse t.reverse = lev u t := lev_reverse u t
  have e2 : lev (c1 :: u.reverse) t.reverse = lev (u ++ [c1]) t := by
    rw [← lev_reverse (u ++ [c1]) t]
    simp [List.reverse_append]
  have e3 : lev u.reverse (c2 :: t.reverse) = lev u (t ++ [c2]) := by
    rw [← lev_reverse u (t ++ [c2])]
    simp [List.reverse_append]
  rw [h1, lev_cons_cons, e1, e2, e3, min3_eq]

lemma innerStep_spec (c2 : Char) (t : List Char) :
    ∀ (suf pre : List Char),
      innerStep c2 (suf.zip (colOf pre suf t)) (lev pre (t ++ [c2])) (lev pre t) =
        colOf pre suf (t ++ [c2]) := by
  intro suf
  induction suf with
  | nil => intro pre; simp [colOf, innerStep]
  | cons c1 suf ih =>
      intro pre
      simp only [colOf, List.zip_cons_cons, innerStep]
      rw [show min3 (lev (pre ++ [c1]) t + 1) (lev pre (t ++ [c2]) + 1)
            (lev pre t + (if c1 = c2 then 0 else 1)) = lev (pre ++ [c1]) (t ++ [c2]) from
          (lev_append pre t c1 c2).symm]
      exact congrArg (fun l => lev (pre ++ [c1]) (t ++ [c2]) :: l) (ih (pre ++ [c1]))

lemma ramp_eq : ∀ (suf pre : List Char), colOf pre suf [] = ramp pre.length suf := by
  intro suf
  induction suf with
  | nil => intro pre; simp [colOf, ramp]
  | cons c suf ih =>
      intro pre
      simp only [colOf, ramp, lev_nil_right]
      have h1 : (pre ++ [c]).length = pre.length + 1 := by simp
      rw [ih (pre ++ [c]), h1]

lemma colOf_getLast :
    ∀ (suf pre t : List Char) (d : Nat), suf ≠ [] →
      (colOf pre suf t).getLastD d = lev (pre ++ suf) t := by
  intro suf
  induction suf with
  | nil => intro pre t d h; exact absurd rfl h
  | cons c suf ih =>
      intro pre t d _
      cases hs : suf with
      | nil => simp [colOf, List.getLastD]
      | cons c2 suf2 =>
          rw [colOf, List.getLastD_cons, ← hs]
          rw [ih (pre ++ [c]) t (lev (pre ++ [c]) t) (by simp [hs])]
          simp

lemma outer_spec (s1 : List Char) :
    ∀ (s2r t : List Char) (h0 : Nat),
      outerLoop s1 s2r (h0 :: colOf [] s1 t) (t.length + 1) =
        (match s2r with
         | [] => h0
         | _ => t.length + s2r.length) :: colOf [] s1 (t ++ s2r) := by
  intro s2r
  induction s2r with
  | nil => intro t h0; simp [outerLoop]
  | cons c2 s2r ih =>
      intro t h0
      rw [outerLoop]
      have hinner : innerStep c2 (s1.zip ((h0 :: colOf [] s1 t).tail)) (t.length + 1)
          (t.length + 1 - 1) = colOf [] s1 (t ++ [c2]) := by
        have h := innerStep_spec c2 t s1 []
        simp only [lev_nil_left, List.length_append, List.length_cons,
          List.length_nil] at h
        simpa using h
      rw [hinner]
      have hlen : (t ++ [c2]).length = t.length + 1 := by simp
      have := ih (t ++ [c2]) (t.length + 1)
      rw [hlen] at this
      rw [this]
      cases s2r with
      | nil => simp
      | cons c3 s2r2 =>
          simp only [List.append_assoc, List.singleton_append, List.length_cons]
          have harith : t.length + 1 + (s2r2.length + 1) = t.length + (s2r2.length + 1 + 1) := by
            omega
          rw [harith]

/-- The C DP computes lev whenever at least one input is non-empty; on
two empty inputs it returns the uninitialised cell. -/
lemma levenshtein_eq_lev (junk : Nat) (s1 s2 : String)
    (h : s1.data ≠ [] ∨ s2.data ≠ []) :
    levenshtein junk s1 s2 = lev s1.data s2.data := by
  unfold levenshtein
  rw [show ramp 0 s1.data = colOf [] s1.data [] from (ramp_eq s1.data []).symm]
  rw [show (1 : Nat) = ([] : List Char).length + 1 from rfl]
  rw [outer_spec s1.data s2.data [] junk]
  cases hs1 : s1.data with
  | nil =>
      cases hs2 : s2.data with
      | nil =>
          exfalso
          rcases h with h | h <;> [exact h hs1; exact h hs2]
      | cons c s2r =>
          simp [colOf, List.getLastD, lev_nil_left]
  | cons c s1r =>
      rw [List.getLastD_cons]
      rw [colOf_getLast (c :: s1r) [] ([] ++ s2.data) _ (by simp)]
      cases s2.data <;> simp

/-- C9 (code_bug): the claim asks for editDistance(a,a) = 0, symmetry
and the triangle inequality for all strings, but on the pair of empty
strings cmd_util_t::levenshtein returns the uninitialised alloca cell
(cell 0 of the column is written only inside the outer loop, which does
not run), so the returned value is whatever junk the stack held -- in
particular not 0 in general.  On every other pair of inputs the
function computes the true Levenshtein distance, and identity, symmetry
and the triangle inequality all hold. -/
theorem levenshtein_metric_props :
    (∀ junk : Nat, levenshtein junk "" "" = junk) ∧
    (∀ (junk : Nat) (a b : String), a.data ≠ [] ∨ b.data ≠ [] →
      levenshtein junk a b = lev a.data b.data) ∧
    (∀ (junk : Nat) (a : String), a.data ≠ [] → levenshtein junk a a = 0) ∧
    (∀ (junk : Nat) (a b : String), a.data ≠ [] ∨ b.data ≠ [] →
      levenshtein junk a b = levenshtein junk b a) ∧
    (∀ (junk : Nat) (a b c : String),
      (a.data ≠ [] ∨ b.data ≠ []) → (b.data ≠ [] ∨ c.data ≠ []) →
      (a.data ≠ [] ∨ c.data ≠ []) →
      levenshtein junk a c ≤ levenshtein junk a b + levenshtein junk b c) := by
  refine ⟨fun junk => rfl, levenshtein_eq_lev, ?_, ?_, ?_⟩
  · intro junk a ha
    rw [levenshtein_eq_lev junk a a (Or.inl ha)]
    exact lev_self a.data
  · intro junk a b h
    rw [levenshtein_eq_lev junk a b h, levenshtein_eq_lev junk b a h.symm]
    exact lev_symm a.data b.data
  · intro junk a b c hab hbc hac
    rw [levenshtein_eq_lev junk a b hab, levenshtein_eq_lev junk b c hbc,
      levenshtein_eq_lev junk a c hac]
    exact lev_triangle a.data b.data c.data

/-- C9 witness: the junk cell surfaces on two empty inputs, and the
metric properties instantiated at concrete strings. -/
theorem levenshtein_metric_props_witness :
    levenshtein 5 "" "" = 5 ∧
    levenshtein 0 "ab" "b" = levenshtein 0 "b" "ab" ∧
    levenshtein 0 "abc" "abc" = 0 ∧
    levenshtein 0 "ac" "c" ≤ levenshtein 0 "ac" "abc" + levenshtein 0 "abc" "c" :=
  ⟨levenshtein_metric_props.1 5,
   levenshtein_metric_props.2.2.2.1 0 "ab" "b" (Or.inl (by decide)),
   levenshtein_metric_props.2.2.1 0 "abc" (by decide),
   levenshtein_metric_props.2.2.2.2 0 "ac" "abc" "c" (Or.inl (by decide))
     (Or.inl (by decide)) (Or.inl (by decide))⟩

end Cmd
